import Mathlib

/-!
Verification of the conversion core of the llm-relay repository.

Strings are modelled as lists of characters (`Str`), JSON values as the
inductive `Json` with objects as ordered association lists, mirroring
`serde_json::Value`.  External library calls (`serde_json::from_str`,
`serde_json::to_string`) are modelled as explicit function parameters of
the converters that use them.  Rust `str::to_lowercase` is modelled in
the ASCII range, which covers every comparison the code performs.
-/

set_option maxHeartbeats 1000000

abbrev Str := List Char

/-- Model of `str::to_lowercase` on a single character (ASCII range). -/
def charLower (c : Char) : Char :=
  if 65 ≤ c.toNat ∧ c.toNat ≤ 90 then Char.ofNat (c.toNat + 32) else c

/-- Model of `str::to_lowercase` (ASCII range). -/
def toLowerS (s : Str) : Str := s.map charLower

/-- ASCII decimal digit test, as used by `u32::from_str`. -/
def isDigitCh (c : Char) : Bool := decide (48 ≤ c.toNat ∧ c.toNat ≤ 57)

/-- Numeric value of a digit string (big-endian fold). -/
def digitsVal (s : Str) : Nat := s.foldl (fun a c => a * 10 + (c.toNat - 48)) 0

/-- Digit-run part of `u32::from_str`: nonempty, all digits, below 2^32. -/
def parseDigits (s : Str) : Option Nat :=
  if s = [] then none
  else if s.all isDigitCh then
    if digitsVal s < 4294967296 then some (digitsVal s) else none
  else none

/-- Model of `str::parse::<u32>`: an optional leading plus sign followed by
decimal digits, rejecting overflow. -/
def parseU32 (s : Str) : Option Nat :=
  match s with
  | [] => none
  | c :: rest => if c = '+' then parseDigits rest else parseDigits (c :: rest)

/-- Model of `str::starts_with` on our string model. -/
def isPre : Str → Str → Bool
  | [], _ => true
  | _ :: _, [] => false
  | p :: ps, c :: cs => p == c && isPre ps cs

/-- Model of `str::contains` for a substring pattern. -/
def containsSub (pat : Str) : Str → Bool
  | [] => isPre pat []
  | c :: rest => isPre pat (c :: rest) || containsSub pat rest

/-- Source `add_mcp_prefix` from `src/convert/tool_names.rs`: prepend the marker
`mcp_` to a tool name unless it is already present. -/
def addMcp (name : Str) : Str :=
  if isPre "mcp_".toList name then name else "mcp_".toList ++ name

/-- Source `strip_mcp_prefix` from `src/convert/tool_names.rs`: remove one leading
`mcp_` marker if present. -/
def stripMcp (name : Str) : Str :=
  if isPre "mcp_".toList name then name.drop 4 else name

/-- Source `StopReason` from `src/types/common.rs`. -/
inductive StopReason where
  | endTurn
  | toolUse
  | maxTokens
  | other (s : Str)
deriving DecidableEq

/-- Source `StopReason::from_anthropic`. -/
def StopReason.fromAnthropic (s : Str) : StopReason :=
  if s = "end_turn".toList then .endTurn
  else if s = "tool_use".toList then .toolUse
  else if s = "max_tokens".toList then .maxTokens
  else .other s

/-- Source `StopReason::from_openai`. -/
def StopReason.fromOpenai (s : Str) : StopReason :=
  if s = "stop".toList then .endTurn
  else if s = "tool_calls".toList then .toolUse
  else if s = "length".toList then .maxTokens
  else .other s

/-- Source `StopReason::to_anthropic`. -/
def StopReason.toAnthropic : StopReason → Str
  | .endTurn => "end_turn".toList
  | .toolUse => "tool_use".toList
  | .maxTokens => "max_tokens".toList
  | .other s => s

/-- Source `StopReason::to_openai`. -/
def StopReason.toOpenai : StopReason → Str
  | .endTurn => "stop".toList
  | .toolUse => "tool_calls".toList
  | .maxTokens => "length".toList
  | .other s => s

-- Basic facts about the prefix model.

theorem isPre_append (p l : Str) : isPre p (p ++ l) = true := by
  induction p with
  | nil => rfl
  | cons c cs ih => simp [isPre, ih]

theorem isPre_iff (p l : Str) : isPre p l = true ↔ ∃ t, l = p ++ t := by
  induction p generalizing l with
  | nil => simp [isPre]
  | cons c cs ih =>
    cases l with
    | nil => simp [isPre]
    | cons d ds =>
      simp only [isPre, Bool.and_eq_true, beq_iff_eq, ih, List.cons_append,
        List.cons.injEq]
      constructor
      · rintro ⟨rfl, t, rfl⟩
        exact ⟨t, rfl, rfl⟩
      · rintro ⟨t, rfl, rfl⟩
        exact ⟨rfl, t, rfl⟩

/-- Claim C1 counterexample: `strip_mcp_prefix` is not idempotent on the
doubly prefixed name `mcp_mcp_a`: one application yields `mcp_a`, a second
application strips again to `a`. -/
theorem c1_strip_not_idem :
    stripMcp (stripMcp "mcp_mcp_a".toList) ≠ stripMcp "mcp_mcp_a".toList := by
  decide

/-- Claim C1 (amended): `add_mcp_prefix` is idempotent on every string, and
`strip_mcp_prefix` is idempotent on every string that does not start with a
doubled `mcp_mcp_` marker (it removes exactly one marker per application). -/
theorem c1_mcp_idem (x : Str) :
    addMcp (addMcp x) = addMcp x ∧
      (isPre "mcp_mcp_".toList x = false → stripMcp (stripMcp x) = stripMcp x) := by
  constructor
  · by_cases h : isPre "mcp_".toList x = true
    · have h1 : addMcp x = x := by unfold addMcp; rw [if_pos h]
      rw [h1]
      exact h1
    · have h1 : addMcp x = "mcp_".toList ++ x := by unfold addMcp; rw [if_neg h]
      rw [h1]
      unfold addMcp
      rw [if_pos (isPre_append _ _)]
  · intro hdd
    by_cases h : isPre "mcp_".toList x = true
    · obtain ⟨t, rfl⟩ := (isPre_iff _ _).mp h
      have h1 : stripMcp ("mcp_".toList ++ t) = t := by
        unfold stripMcp
        rw [if_pos h]
        simp
      rw [h1]
      have ht : ¬ isPre "mcp_".toList t = true := by
        intro hc
        obtain ⟨u, rfl⟩ := (isPre_iff _ _).mp hc
        have e1 : ("mcp_mcp_".toList : Str) = "mcp_".toList ++ "mcp_".toList := by decide
        have h2 : isPre "mcp_mcp_".toList ("mcp_".toList ++ ("mcp_".toList ++ u)) = true := by
          rw [← List.append_assoc, ← e1]
          exact isPre_append _ _
        rw [h2] at hdd
        exact absurd hdd (by decide)
      unfold stripMcp
      rw [if_neg ht]
    · have h1 : stripMcp x = x := by unfold stripMcp; rw [if_neg h]
      rw [h1, h1]

/-- Claim C1 witness: both maps are idempotent at the concrete name `mcp_foo`. -/
theorem c1_mcp_idem_witness :
    addMcp (addMcp "mcp_foo".toList) = addMcp "mcp_foo".toList ∧
      stripMcp (stripMcp "mcp_foo".toList) = stripMcp "mcp_foo".toList :=
  ⟨(c1_mcp_idem "mcp_foo".toList).1,
    (c1_mcp_idem "mcp_foo".toList).2 (by decide)⟩

/-- Claim C9: normalizing a raw stop-reason string and re-emitting it in the
same wire vocabulary is the identity, in both the flat (openai) and the
structured (anthropic) direction, including the `Other` passthrough case. -/
theorem c9_stop_reason_round_trip (s : Str) :
    (StopReason.fromOpenai s).toOpenai = s ∧
      (StopReason.fromAnthropic s).toAnthropic = s := by
  constructor
  · unfold StopReason.fromOpenai
    split_ifs with h1 h2 h3
    · exact h1.symm
    · exact h2.symm
    · exact h3.symm
    · rfl
  · unfold StopReason.fromAnthropic
    split_ifs with h1 h2 h3
    · exact h1.symm
    · exact h2.symm
    · exact h3.symm
    · rfl

-- ===== Thinking/Effort resolver (src/convert/thinking.rs) =====

/-- Source `EffortLevel` from `src/types/common.rs`. -/
inductive EffortLevel where
  | max
  | high
  | medium
  | low
deriving DecidableEq

/-- Source `ThinkingConfig` from `src/types/common.rs`. -/
inductive ThinkingCfg where
  | adaptive (effort : EffortLevel)
  | enabled (budgetTokens : Nat)
deriving DecidableEq

/-- Source `supports_adaptive_thinking` from `src/convert/thinking.rs`. -/
def supportsAdaptiveThinking (model : Str) : Bool :=
  let lower := toLowerS model
  containsSub "opus-4-6".toList lower || containsSub "sonnet-4-6".toList lower ||
    isPre "claude-opus-4-6".toList lower || isPre "claude-sonnet-4-6".toList lower

/-- The named-suffix vocabulary of `parse_model_suffix`. -/
def namedSuffixes : List Str :=
  ["none", "off", "disabled", "low", "minimal", "medium", "med", "high",
    "xhigh", "max", "auto"].map String.toList

/-- Suffix validity test of `parse_model_suffix`: a case-insensitive match of
the fixed vocabulary, or a string parsing as `u32`. -/
def isValidSuffix (s : Str) : Bool :=
  namedSuffixes.contains (toLowerS s) || (parseU32 s).isSome

/-- Split a string at its LAST opening parenthesis (`str::rfind` plus the two
byte slices of `parse_model_suffix`): returns the part before and after it. -/
def splitAtLastParen : Str → Option (Str × Str)
  | [] => none
  | c :: rest =>
    match splitAtLastParen rest with
    | some (pre, suf) => some (c :: pre, suf)
    | none => if c = '(' then some ([], rest) else none

/-- Source `parse_model_suffix` from `src/convert/thinking.rs`. -/
def parseModelSuffix (model : Str) : Str × Option Str :=
  match splitAtLastParen model with
  | none => (model, none)
  | some (base, afterParen) =>
    if model.getLast? = some ')' then
      let suffix := afterParen.dropLast
      if isValidSuffix suffix then (base, some suffix) else (model, none)
    else (model, none)

/-- Numeric arm of the adaptive branch of `build_thinking_for_model`:
the magnitude buckets, with `0` disabling thinking (the early return). -/
def adaptiveLevelForNum (n : Nat) : Option ThinkingCfg :=
  if n = 0 then none
  else if n ≤ 2048 then some (.adaptive .low)
  else if n ≤ 16384 then some (.adaptive .medium)
  else if n ≤ 49152 then some (.adaptive .high)
  else some (.adaptive .max)

/-- Source `build_thinking_for_model` from `src/convert/thinking.rs` (the
`Some(Adaptive)` wrap is inlined into each arm of the effort match). -/
def buildThinkingForModel (model effort : Str) : Option ThinkingCfg :=
  let effortLower := toLowerS effort
  if effortLower = "none".toList ∨ effortLower = "off".toList ∨
      effortLower = "disabled".toList then none
  else if supportsAdaptiveThinking model then
    if effortLower = "low".toList ∨ effortLower = "minimal".toList then
      some (.adaptive .low)
    else if effortLower = "medium".toList ∨ effortLower = "med".toList ∨
        effortLower = "auto".toList then some (.adaptive .medium)
    else if effortLower = "high".toList then some (.adaptive .high)
    else if effortLower = "xhigh".toList ∨ effortLower = "max".toList then
      some (.adaptive .max)
    else
      match parseU32 effort with
      | some n => adaptiveLevelForNum n
      | none => some (.adaptive .high)
  else
    let budgetTokens :=
      if effortLower = "low".toList ∨ effortLower = "minimal".toList then 1024
      else if effortLower = "medium".toList ∨ effortLower = "med".toList then 8192
      else if effortLower = "high".toList then 32000
      else if effortLower = "xhigh".toList ∨ effortLower = "max".toList then 64000
      else if effortLower = "auto".toList then 16000
      else (parseU32 effort).getD 8192
    some (.enabled budgetTokens)

-- Facts about numeric effort strings.

theorem parseDigits_chars {s : Str} {n : Nat} (h : parseDigits s = some n) :
    ∀ c ∈ s, isDigitCh c = true := by
  intro c hc
  unfold parseDigits at h
  split_ifs at h with h1 h2 h3
  exact List.all_eq_true.mp h2 c hc

theorem parseU32_chars {s : Str} {n : Nat} (h : parseU32 s = some n) :
    ∀ c ∈ s, isDigitCh c = true ∨ c = '+' := by
  intro c hc
  cases s with
  | nil => cases hc
  | cons c0 rest =>
    simp only [parseU32] at h
    split_ifs at h with h0
    · subst h0
      cases hc with
      | head => exact Or.inr rfl
      | tail _ hm => exact Or.inl (parseDigits_chars h c hm)
    · exact Or.inl (parseDigits_chars h c hc)

theorem charLower_of_digit_or_plus {c : Char}
    (h : isDigitCh c = true ∨ c = '+') : charLower c = c := by
  unfold charLower
  rcases h with h | rfl
  · have hb : 48 ≤ c.toNat ∧ c.toNat ≤ 57 := by simpa [isDigitCh] using h
    rw [if_neg]
    omega
  · rfl

theorem toLowerS_of_numeric {s : Str}
    (h : ∀ c ∈ s, isDigitCh c = true ∨ c = '+') : toLowerS s = s := by
  unfold toLowerS
  induction s with
  | nil => rfl
  | cons c cs ih =>
    simp only [List.map_cons]
    rw [charLower_of_digit_or_plus (h c (by simp)),
      ih (fun x hx => h x (by simp [hx]))]

/-- A numeric string is distinct from any word containing a non-digit,
non-plus character. -/
theorem numeric_ne_word {s w : Str}
    (h : ∀ c ∈ s, isDigitCh c = true ∨ c = '+') (c : Char) (hc : c ∈ w)
    (hcd : ¬ (isDigitCh c = true ∨ c = '+')) : s ≠ w := by
  intro he
  subst he
  exact hcd (h c hc)

/-- Claim C5: on a model that supports adaptive thinking, a purely numeric
effort string is bucketed by magnitude: 0 disables thinking, 1..2048 is Low,
2049..16384 is Medium, 16385..49152 is High, and anything above is Max. -/
theorem c5_numeric_effort_buckets (model effort : Str) (n : Nat)
    (hsa : supportsAdaptiveThinking model = true)
    (hp : parseU32 effort = some n) :
    (n = 0 → buildThinkingForModel model effort = none) ∧
    (1 ≤ n → n ≤ 2048 →
      buildThinkingForModel model effort = some (.adaptive .low)) ∧
    (2049 ≤ n → n ≤ 16384 →
      buildThinkingForModel model effort = some (.adaptive .medium)) ∧
    (16385 ≤ n → n ≤ 49152 →
      buildThinkingForModel model effort = some (.adaptive .high)) ∧
    (49153 ≤ n → buildThinkingForModel model effort = some (.adaptive .max)) := by
  have hch := parseU32_chars hp
  have hlw : toLowerS effort = effort := toLowerS_of_numeric hch
  have hno : ¬ (effort = "none".toList ∨ effort = "off".toList ∨
      effort = "disabled".toList) := by
    push_neg
    refine ⟨?_, ?_, ?_⟩
    · exact numeric_ne_word hch 'n' (by decide) (by decide)
    · exact numeric_ne_word hch 'o' (by decide) (by decide)
    · exact numeric_ne_word hch 'd' (by decide) (by decide)
  have h1 : ¬ (effort = "low".toList ∨ effort = "minimal".toList) := by
    push_neg
    exact ⟨numeric_ne_word hch 'l' (by decide) (by decide),
      numeric_ne_word hch 'm' (by decide) (by decide)⟩
  have h2 : ¬ (effort = "medium".toList ∨ effort = "med".toList ∨
      effort = "auto".toList) := by
    push_neg
    refine ⟨?_, ?_, ?_⟩
    · exact numeric_ne_word hch 'm' (by decide) (by decide)
    · exact numeric_ne_word hch 'm' (by decide) (by decide)
    · exact numeric_ne_word hch 'a' (by decide) (by decide)
  have h3 : ¬ (effort = "high".toList) :=
    numeric_ne_word hch 'h' (by decide) (by decide)
  have h4 : ¬ (effort = "xhigh".toList ∨ effort = "max".toList) := by
    push_neg
    exact ⟨numeric_ne_word hch 'x' (by decide) (by decide),
      numeric_ne_word hch 'm' (by decide) (by decide)⟩
  have hkey : buildThinkingForModel model effort = adaptiveLevelForNum n := by
    simp only [buildThinkingForModel]
    rw [hlw, if_neg hno, if_pos hsa, if_neg h1, if_neg h2, if_neg h3, if_neg h4,
      hp]
  refine ⟨?_, ?_, ?_, ?_, ?_⟩
  · intro h0
    rw [hkey]
    unfold adaptiveLevelForNum
    rw [if_pos h0]
  · intro ha hb
    rw [hkey]
    unfold adaptiveLevelForNum
    rw [if_neg (by omega), if_pos hb]
  · intro ha hb
    rw [hkey]
    unfold adaptiveLevelForNum
    rw [if_neg (by omega), if_neg (by omega), if_pos hb]
  · intro ha hb
    rw [hkey]
    unfold adaptiveLevelForNum
    rw [if_neg (by omega), if_neg (by omega), if_neg (by omega), if_pos hb]
  · intro ha
    rw [hkey]
    unfold adaptiveLevelForNum
    rw [if_neg (by omega), if_neg (by omega), if_neg (by omega),
      if_neg (by omega)]

/-- Claim C5 witness: on the adaptive-capable model `claude-opus-4-6`, the
effort string `2049` resolves to adaptive Medium. -/
theorem c5_numeric_effort_buckets_witness :
    buildThinkingForModel "claude-opus-4-6".toList "2049".toList =
      some (.adaptive .medium) :=
  (c5_numeric_effort_buckets "claude-opus-4-6".toList "2049".toList 2049
    (by decide) (by decide)).2.2.1 (by decide) (by decide)

-- Facts about splitting at the last opening parenthesis.

theorem splitAtLastParen_of_not_mem {l : Str} (h : '(' ∉ l) :
    splitAtLastParen l = none := by
  induction l with
  | nil => rfl
  | cons c cs ih =>
    have hc : ¬ c = '(' := by
      rintro rfl
      exact h (List.mem_cons_self _ _)
    have hcs : '(' ∉ cs := fun hm => h (List.mem_cons_of_mem _ hm)
    simp [splitAtLastParen, ih hcs, hc]

theorem splitAtLastParen_eq_none {l : Str} (h : splitAtLastParen l = none) :
    '(' ∉ l := by
  induction l with
  | nil => simp
  | cons c cs ih =>
    cases hs : splitAtLastParen cs with
    | some p => simp [splitAtLastParen, hs] at h
    | none =>
      simp only [splitAtLastParen, hs] at h
      split_ifs at h with hc
      intro hm
      rcases List.mem_cons.mp hm with h1 | h1
      · exact hc h1.symm
      · exact ih hs h1

theorem splitAtLastParen_append (b t : Str) (h : '(' ∉ t) :
    splitAtLastParen (b ++ '(' :: t) = some (b, t) := by
  induction b with
  | nil => simp [splitAtLastParen, splitAtLastParen_of_not_mem h]
  | cons c cs ih => simp [splitAtLastParen, ih]

theorem splitAtLastParen_sound {l pre suf : Str}
    (h : splitAtLastParen l = some (pre, suf)) :
    l = pre ++ '(' :: suf ∧ '(' ∉ suf := by
  induction l generalizing pre suf with
  | nil => cases h
  | cons c cs ih =>
    cases hs : splitAtLastParen cs with
    | some p =>
      obtain ⟨p1, p2⟩ := p
      simp only [splitAtLastParen, hs, Option.some.injEq, Prod.mk.injEq] at h
      obtain ⟨h1, h2⟩ := h
      subst h1
      subst h2
      obtain ⟨ha, hb⟩ := ih hs
      exact ⟨by rw [ha]; rfl, hb⟩
    | none =>
      simp only [splitAtLastParen, hs] at h
      split_ifs at h with hc
      simp only [Option.some.injEq, Prod.mk.injEq] at h
      obtain ⟨h1, h2⟩ := h
      subst h1
      subst h2
      subst hc
      exact ⟨rfl, splitAtLastParen_eq_none hs⟩

theorem isValidSuffix_no_paren {s : Str} (h : isValidSuffix s = true) :
    '(' ∉ s := by
  unfold isValidSuffix at h
  rw [Bool.or_eq_true] at h
  rcases h with hcon | hnum
  · have hmem : toLowerS s ∈ namedSuffixes := by simpa using hcon
    simp only [namedSuffixes, List.map_cons, List.map_nil, List.mem_cons,
      List.not_mem_nil, or_false] at hmem
    intro hp
    have hmap : charLower '(' ∈ toLowerS s := List.mem_map_of_mem _ hp
    rcases hmem with h1 | h1 | h1 | h1 | h1 | h1 | h1 | h1 | h1 | h1 | h1 <;>
      (rw [h1] at hmap; exact absurd hmap (by decide))
  · rw [Option.isSome_iff_exists] at hnum
    obtain ⟨n, hn⟩ := hnum
    intro hp
    exact absurd (parseU32_chars hn '(' hp) (by decide)

theorem parseModelSuffix_eq_of_none {model : Str}
    (hsp : splitAtLastParen model = none) :
    parseModelSuffix model = (model, none) := by
  unfold parseModelSuffix
  rw [hsp]

theorem parseModelSuffix_eq_of_split {model pre suf : Str}
    (hsp : splitAtLastParen model = some (pre, suf)) :
    parseModelSuffix model =
      if model.getLast? = some ')' then
        if isValidSuffix suf.dropLast then (pre, some suf.dropLast)
        else (model, none)
      else (model, none) := by
  unfold parseModelSuffix
  rw [hsp]

theorem parseModelSuffix_shape (model : Str) :
    parseModelSuffix model = (model, none) ∨
      ∃ b s, parseModelSuffix model = (b, some s) := by
  cases hsp : splitAtLastParen model with
  | none => exact Or.inl (parseModelSuffix_eq_of_none hsp)
  | some p =>
    obtain ⟨pre, suf⟩ := p
    rw [parseModelSuffix_eq_of_split hsp]
    split_ifs with h1 h2
    · exact Or.inr ⟨pre, suf.dropLast, rfl⟩
    · exact Or.inl rfl
    · exact Or.inl rfl

/-- Claim C6: `parse_model_suffix` returns `(base, some suffix)` exactly when
the model identifier ends in a parenthesized suffix that is valid (a
case-insensitive member of the fixed vocabulary or an unsigned integer);
for any other suffix, or missing parenthesis, it returns the identifier
unmodified paired with no suffix. -/
theorem c6_parse_model_suffix (model : Str) :
    (∀ b s, parseModelSuffix model = (b, some s) →
        model = b ++ '(' :: (s ++ [')']) ∧ isValidSuffix s = true) ∧
    (∀ b s, isValidSuffix s = true → model = b ++ '(' :: (s ++ [')']) →
        parseModelSuffix model = (b, some s)) ∧
    ((¬ ∃ b s, isValidSuffix s = true ∧ model = b ++ '(' :: (s ++ [')'])) →
        parseModelSuffix model = (model, none)) := by
  have forward : ∀ b s, parseModelSuffix model = (b, some s) →
      model = b ++ '(' :: (s ++ [')']) ∧ isValidSuffix s = true := by
    intro b s hps
    cases hsp : splitAtLastParen model with
    | none =>
      rw [parseModelSuffix_eq_of_none hsp] at hps
      simp at hps
    | some p =>
      obtain ⟨pre, suf⟩ := p
      rw [parseModelSuffix_eq_of_split hsp] at hps
      split_ifs at hps with hLast hValid
      · simp only [Prod.mk.injEq, Option.some.injEq] at hps
        obtain ⟨rfl, rfl⟩ := hps
        obtain ⟨hm, hnp⟩ := splitAtLastParen_sound hsp
        have hsufne : suf ≠ [] := by
          rintro rfl
          rw [hm] at hLast
          rw [List.getLast?_append_of_ne_nil _ (by simp)] at hLast
          simp at hLast
        have hLast2 : suf.getLast? = some ')' := by
          rw [hm] at hLast
          rw [List.getLast?_append_of_ne_nil _ (by simp)] at hLast
          rw [show ('(' :: suf : Str) = ['('] ++ suf from rfl,
            List.getLast?_append_of_ne_nil _ hsufne] at hLast
          exact hLast
        have hdl : suf.dropLast ++ [')'] = suf :=
          List.dropLast_append_getLast? ')' (by simp [hLast2])
        exact ⟨by rw [hm, hdl], hValid⟩
      · simp at hps
      · simp at hps
  refine ⟨forward, ?_, ?_⟩
  · intro b s hvalid hm
    have hnp : '(' ∉ s ++ [')'] := by
      intro hmem
      rcases List.mem_append.mp hmem with h1 | h1
      · exact isValidSuffix_no_paren hvalid h1
      · simp at h1
    have hsp : splitAtLastParen model = some (b, s ++ [')']) := by
      rw [hm]
      exact splitAtLastParen_append b (s ++ [')']) hnp
    rw [parseModelSuffix_eq_of_split hsp]
    have hLast : model.getLast? = some ')' := by
      have e : b ++ '(' :: (s ++ [')']) = (b ++ '(' :: s) ++ [')'] := by simp
      rw [hm, e]
      exact List.getLast?_concat _
    rw [if_pos hLast]
    have hdl2 : (s ++ [')'] : Str).dropLast = s := by simp
    rw [hdl2, if_pos hvalid]
  · intro hno
    rcases parseModelSuffix_shape model with hok | ⟨b, s, hbs⟩
    · exact hok
    · obtain ⟨hm, hv⟩ := forward b s hbs
      exact absurd ⟨b, s, hv, hm⟩ hno

/-- Claim C6 witness: `claude-sonnet-4-5(medium)` splits into base
`claude-sonnet-4-5` and suffix `medium`. -/
theorem c6_parse_model_suffix_witness :
    parseModelSuffix "claude-sonnet-4-5(medium)".toList =
      ("claude-sonnet-4-5".toList, some "medium".toList) :=
  (c6_parse_model_suffix "claude-sonnet-4-5(medium)".toList).2.1
    "claude-sonnet-4-5".toList "medium".toList (by decide) (by decide)

-- ===== JSON model (serde_json::Value) =====

/-- Model of `serde_json::Value`; objects are ordered association lists. -/
inductive Json where
  | null
  | bool (b : Bool)
  | num (n : Int)
  | str (s : Str)
  | arr (elems : List Json)
  | obj (fields : List (Str × Json))

/-- First-match association lookup (`serde_json::Map::get`). -/
def lookupA : List (Str × Json) → Str → Option Json
  | [], _ => none
  | (k0, v0) :: rest, k => if k0 = k then some v0 else lookupA rest k

/-- Source `Value::get(key)`: `none` on non-objects. -/
def Json.get : Json → Str → Option Json
  | .obj fs, k => lookupA fs k
  | _, _ => none

/-- Replace the value at an existing key, leaving everything else alone
(the functional image of writing through `get_mut`). -/
def replaceA : List (Str × Json) → Str → Json → List (Str × Json)
  | [], _, _ => []
  | (k0, v0) :: rest, k, v =>
    if k0 = k then (k0, v) :: rest else (k0, v0) :: replaceA rest k v

/-- Write a new value at a key of an object (used only when the key is
present, mirroring a mutation through `get_mut`). -/
def Json.setKey : Json → Str → Json → Json
  | .obj fs, k, v => .obj (replaceA fs k v)
  | j, _, _ => j

/-- Source `serde_json::Map::insert`: replace the value if the key exists,
otherwise append the pair. -/
def insertKey : List (Str × Json) → Str → Json → List (Str × Json)
  | [], k, v => [(k, v)]
  | (k0, v0) :: rest, k, v =>
    if k0 = k then (k0, v) :: rest else (k0, v0) :: insertKey rest k v

def Json.isObj : Json → Bool
  | .obj _ => true
  | _ => false

-- Association list facts.

theorem lookupA_replaceA_self {fs : List (Str × Json)} {k : Str} {w : Json}
    (v : Json) (h : lookupA fs k = some w) :
    lookupA (replaceA fs k v) k = some v := by
  induction fs with
  | nil => cases h
  | cons p rest ih =>
    obtain ⟨k0, v0⟩ := p
    by_cases hk : k0 = k
    · simp [lookupA, replaceA, hk]
    · simp only [lookupA, replaceA, if_neg hk] at h ⊢
      exact ih h

theorem lookupA_replaceA_ne {fs : List (Str × Json)} {k k2 : Str} (v : Json)
    (h : k ≠ k2) : lookupA (replaceA fs k v) k2 = lookupA fs k2 := by
  induction fs with
  | nil => rfl
  | cons p rest ih =>
    obtain ⟨k0, v0⟩ := p
    by_cases hk : k0 = k
    · subst hk
      simp [lookupA, replaceA, if_neg h]
    · simp only [replaceA, if_neg hk, lookupA]
      by_cases hk2 : k0 = k2
      · simp [hk2]
      · simp [hk2, ih]

theorem replaceA_eq_self {fs : List (Str × Json)} {k : Str} {v : Json}
    (h : lookupA fs k = some v) : replaceA fs k v = fs := by
  induction fs with
  | nil => rfl
  | cons p rest ih =>
    obtain ⟨k0, v0⟩ := p
    by_cases hk : k0 = k
    · simp only [lookupA, if_pos hk] at h
      obtain rfl : v0 = v := Option.some.injEq .. ▸ h
      simp [replaceA, hk]
    · simp only [lookupA, if_neg hk] at h
      simp [replaceA, hk, ih h]

theorem lookupA_insertKey_self (fs : List (Str × Json)) (k : Str) (v : Json) :
    lookupA (insertKey fs k v) k = some v := by
  induction fs with
  | nil => simp [insertKey, lookupA]
  | cons p rest ih =>
    obtain ⟨k0, v0⟩ := p
    by_cases hk : k0 = k
    · simp [insertKey, lookupA, hk]
    · simp [insertKey, lookupA, hk, ih]

-- Json get/set facts.

theorem get_setKey_self {b : Json} {k : Str} {w : Json} (v : Json)
    (h : b.get k = some w) : (b.setKey k v).get k = some v := by
  cases b with
  | obj fs => exact lookupA_replaceA_self v h
  | null => cases h
  | bool x => cases h
  | num x => cases h
  | str x => cases h
  | arr x => cases h

theorem get_setKey_ne {b : Json} {k k2 : Str} (v : Json) (h : k ≠ k2) :
    (b.setKey k v).get k2 = b.get k2 := by
  cases b with
  | obj fs => exact lookupA_replaceA_ne v h
  | null => rfl
  | bool x => rfl
  | num x => rfl
  | str x => rfl
  | arr x => rfl

theorem setKey_eq_self {b : Json} {k : Str} {v : Json}
    (h : b.get k = some v) : b.setKey k v = b := by
  cases b with
  | obj fs => simp [Json.setKey, replaceA_eq_self h]
  | null => rfl
  | bool x => rfl
  | num x => rfl
  | str x => rfl
  | arr x => rfl

-- ===== Cache-breakpoint planner (src/convert/cache_control.rs) =====

def ccKey : Str := "cache_control".toList
def sysKey : Str := "system".toList
def toolsKey : Str := "tools".toList
def msgsKey : Str := "messages".toList
def contentKey : Str := "content".toList
def roleKey : Str := "role".toList
def typeKey : Str := "type".toList
def textKey : Str := "text".toList

/-- The injected annotation value `{"type": "ephemeral"}`. -/
def ephem : Json := .obj [(typeKey, .str "ephemeral".toList)]

/-- Whether a value carries a `cache_control` key. -/
def hasCC (v : Json) : Bool := (v.get ccKey).isSome

/-- Insert the ephemeral `cache_control` annotation into an object;
non-objects are left unchanged (the `as_object_mut` guard). -/
def annotateObj : Json → Json
  | .obj fs => .obj (insertKey fs ccKey ephem)
  | j => j

/-- Annotate the last element of a list (the `last_mut` write). -/
def annotateLast : List Json → List Json
  | [] => []
  | [x] => [annotateObj x]
  | x :: y :: rest => x :: annotateLast (y :: rest)

/-- Whether the last element of a list is a JSON object. -/
def lastIsObj : List Json → Bool
  | [] => false
  | [x] => x.isObj
  | _ :: y :: rest => lastIsObj (y :: rest)

/-- Count of annotated entries of one array zone (`system` or `tools`). -/
def countArrCC : Option Json → Nat
  | some (.arr xs) => xs.countP hasCC
  | _ => 0

/-- Count of annotated blocks of one message's `content` array. -/
def countMsgCC (m : Json) : Nat :=
  match m.get contentKey with
  | some (.arr bs) => bs.countP hasCC
  | _ => 0

/-- Count of annotated blocks across all messages. -/
def countMsgsCC : Option Json → Nat
  | some (.arr ms) => (ms.map countMsgCC).sum
  | _ => 0

/-- Source `count_cache_control_blocks`: annotations in the `system` array, the
`tools` array, and all message `content` arrays. -/
def countCC (body : Json) : Nat :=
  countArrCC (body.get sysKey) + countArrCC (body.get toolsKey) +
    countMsgsCC (body.get msgsKey)

/-- Source `inject_tools_cache_control`: annotate the last tool definition unless
the zone is empty, missing, or already annotated somewhere. -/
def injectTools (body : Json) : Json :=
  match body.get toolsKey with
  | some (.arr xs) =>
    if xs.isEmpty then body
    else if xs.any hasCC then body
    else body.setKey toolsKey (.arr (annotateLast xs))
  | _ => body

/-- A one-block system array created from a bare string system prompt,
already carrying the annotation. -/
def ccTextBlock (t : Str) : Json :=
  .obj [(typeKey, .str "text".toList), (textKey, .str t), (ccKey, ephem)]

/-- Source `inject_system_cache_control`: annotate the last system block, or turn a
bare string system prompt into a one-block annotated array. -/
def injectSystem (body : Json) : Json :=
  match body.get sysKey with
  | some (.arr xs) =>
    if xs.isEmpty then body
    else if xs.any hasCC then body
    else body.setKey sysKey (.arr (annotateLast xs))
  | some (.str t) => body.setKey sysKey (.arr [ccTextBlock t])
  | _ => body

/-- Whether a message has an annotated block in its `content` array. -/
def msgHasCC (m : Json) : Bool :=
  match m.get contentKey with
  | some (.arr bs) => bs.any hasCC
  | _ => false

/-- Whether the message's `role` field is the string `user`. -/
def roleIsUser (m : Json) : Bool :=
  match m.get roleKey with
  | some (.str r) => decide (r = "user".toList)
  | _ => false

/-- Indices of user messages, counting from `i`. -/
def userIndicesFrom (i : Nat) : List Json → List Nat
  | [] => []
  | m :: rest =>
    if roleIsUser m then i :: userIndicesFrom (i + 1) rest
    else userIndicesFrom (i + 1) rest

/-- Modify the element at an index, if the index is in range. -/
def modifyIdx : List Json → Nat → (Json → Json) → List Json
  | [], _, _ => []
  | x :: xs, 0, f => f x :: xs
  | x :: xs, n + 1, f => x :: modifyIdx xs n f

/-- Annotation of one message's `content` value: annotate the last block of
a nonempty array, convert a bare string into a one-block annotated array,
leave anything else unchanged. -/
def annotateContent : Json → Json
  | .arr bs => if bs.isEmpty then .arr bs else .arr (annotateLast bs)
  | .str t => .arr [ccTextBlock t]
  | j => j

/-- The per-message update of `inject_messages_cache_control`: rewrite the
`content` value if it exists. -/
def updMsg (m : Json) : Json :=
  match m.get contentKey with
  | some c => m.setKey contentKey (annotateContent c)
  | none => m

/-- The target index: the second-to-last user turn. -/
def targetIdx (ms : List Json) : Nat :=
  (userIndicesFrom 0 ms).getD ((userIndicesFrom 0 ms).length - 2) 0

/-- Source `inject_messages_cache_control`: annotate the content of the
second-to-last user turn when no message is annotated yet. -/
def injectMessages (body : Json) : Json :=
  match body.get msgsKey with
  | some (.arr ms) =>
    if ms.any msgHasCC then body
    else if (userIndicesFrom 0 ms).length < 2 then body
    else body.setKey msgsKey (.arr (modifyIdx ms (targetIdx ms) updMsg))
  | _ => body

/-- One budgeted step of `ensure_cache_control`: run the injector if budget
remains and charge the budget by the observed count difference. -/
def stepCC (inj : Json → Json) (p : Json × Nat) : Json × Nat :=
  if 0 < p.2 then (inj p.1, p.2 - (countCC (inj p.1) - countCC p.1)) else p

/-- Source `ensure_cache_control`: return unchanged at 4 or more existing
annotations, otherwise run the three injectors in priority order under the
remaining budget. -/
def ensureCacheControl (body : Json) : Json :=
  if 4 ≤ countCC body then body
  else
    let p1 := stepCC injectTools (body, 4 - countCC body)
    let p2 := stepCC injectSystem p1
    if 0 < p2.2 then injectMessages p2.1 else p2.1

-- Annotation facts.

theorem annotateObj_not_obj {j : Json} (h : j.isObj = false) :
    annotateObj j = j := by
  cases j with
  | obj fs => simp [Json.isObj] at h
  | null => rfl
  | bool x => rfl
  | num x => rfl
  | str x => rfl
  | arr x => rfl

theorem hasCC_annotateObj {j : Json} (h : j.isObj = true) :
    hasCC (annotateObj j) = true := by
  cases j with
  | obj fs => simp [annotateObj, hasCC, Json.get, lookupA_insertKey_self]
  | null => simp [Json.isObj] at h
  | bool x => simp [Json.isObj] at h
  | num x => simp [Json.isObj] at h
  | str x => simp [Json.isObj] at h
  | arr x => simp [Json.isObj] at h

theorem annotateLast_last_not_obj {xs : List Json} (h : lastIsObj xs = false) :
    annotateLast xs = xs := by
  induction xs with
  | nil => rfl
  | cons x rest ih =>
    cases rest with
    | nil =>
      have hx : x.isObj = false := by simpa [lastIsObj] using h
      simp [annotateLast, annotateObj_not_obj hx]
    | cons y t =>
      have hr : lastIsObj (y :: t) = false := by simpa [lastIsObj] using h
      simp only [annotateLast]
      rw [ih hr]

theorem annotateLast_any_cc {xs : List Json} (h : lastIsObj xs = true) :
    (annotateLast xs).any hasCC = true := by
  induction xs with
  | nil => simp [lastIsObj] at h
  | cons x rest ih =>
    cases rest with
    | nil =>
      have hx : x.isObj = true := by simpa [lastIsObj] using h
      simp [annotateLast, hasCC_annotateObj hx]
    | cons y t =>
      have hr : lastIsObj (y :: t) = true := by simpa [lastIsObj] using h
      simp only [annotateLast, List.any_cons, Bool.or_eq_true]
      exact Or.inr (ih hr)

theorem countP_annotateLast {xs : List Json} (hcc : xs.any hasCC = false)
    (hobj : lastIsObj xs = true) :
    (annotateLast xs).countP hasCC = xs.countP hasCC + 1 := by
  induction xs with
  | nil => simp [lastIsObj] at hobj
  | cons x rest ih =>
    cases rest with
    | nil =>
      have hx : x.isObj = true := by simpa [lastIsObj] using hobj
      have hnx : hasCC x = false := by simpa using hcc
      simp [annotateLast, List.countP_cons, hasCC_annotateObj hx, hnx]
    | cons y t =>
      have hr : lastIsObj (y :: t) = true := by simpa [lastIsObj] using hobj
      rw [List.any_cons] at hcc
      obtain ⟨hx, hrest⟩ := Bool.or_eq_false_iff.mp hcc
      show List.countP hasCC (x :: annotateLast (y :: t)) =
        List.countP hasCC (x :: y :: t) + 1
      rw [List.countP_cons, List.countP_cons, ih hrest hr]
      simp [hx]

theorem hasCC_ccTextBlock (t : Str) : hasCC (ccTextBlock t) = true := by
  simp [hasCC, ccTextBlock, Json.get, lookupA, typeKey, textKey, ccKey]

-- modifyIdx facts.

theorem modifyIdx_eq_self {ms : List Json} {i : Nat} {f : Json → Json}
    (h : f (ms.getD i Json.null) = ms.getD i Json.null) :
    modifyIdx ms i f = ms := by
  induction ms generalizing i with
  | nil => rfl
  | cons x xs ih =>
    cases i with
    | zero =>
      show f x :: xs = x :: xs
      rw [show f x = x from by simpa using h]
    | succ n =>
      show x :: modifyIdx xs n f = x :: xs
      rw [ih (by simpa using h)]

theorem modifyIdx_any {ms : List Json} {i : Nat} {f : Json → Json}
    {p : Json → Bool} (hlt : i < ms.length)
    (hp : p (f (ms.getD i Json.null)) = true) :
    (modifyIdx ms i f).any p = true := by
  induction ms generalizing i with
  | nil => simp at hlt
  | cons x xs ih =>
    cases i with
    | zero =>
      show (f x :: xs).any p = true
      simp only [List.any_cons, Bool.or_eq_true]
      exact Or.inl (by simpa using hp)
    | succ n =>
      show (x :: modifyIdx xs n f).any p = true
      simp only [List.any_cons, Bool.or_eq_true]
      exact Or.inr (ih (by simpa using hlt) (by simpa using hp))

-- User-index facts.

theorem userIndicesFrom_lt {ms : List Json} :
    ∀ {i : Nat}, ∀ j ∈ userIndicesFrom i ms, j < i + ms.length := by
  induction ms with
  | nil => intro i j hj; simp [userIndicesFrom] at hj
  | cons m rest ih =>
    intro i j hj
    unfold userIndicesFrom at hj
    split_ifs at hj with hr
    · rcases List.mem_cons.mp hj with rfl | hj2
      · simp
      · have := ih j hj2
        simp only [List.length_cons]
        omega
    · have := ih j hj
      simp only [List.length_cons]
      omega

theorem getD_mem_of_lt {α : Type} {l : List α} {i : Nat} {d : α}
    (h : i < l.length) : l.getD i d ∈ l := by
  induction l generalizing i with
  | nil => simp at h
  | cons x xs ih =>
    cases i with
    | zero => simp
    | succ n =>
      simp only [List.getD_cons_succ]
      exact List.mem_cons_of_mem _ (ih (by simpa using h))

theorem targetIdx_lt {ms : List Json}
    (h : 2 ≤ (userIndicesFrom 0 ms).length) : targetIdx ms < ms.length := by
  have hmem : targetIdx ms ∈ userIndicesFrom 0 ms := by
    unfold targetIdx
    apply getD_mem_of_lt
    omega
  have := userIndicesFrom_lt (targetIdx ms) hmem
  omega

-- Settled zones: a zone whose injector can no longer change the body.

def toolsSettled : Option Json → Prop
  | some (.arr xs) =>
    xs.isEmpty = true ∨ xs.any hasCC = true ∨ lastIsObj xs = false
  | _ => True

def sysSettled : Option Json → Prop
  | some (.arr xs) =>
    xs.isEmpty = true ∨ xs.any hasCC = true ∨ lastIsObj xs = false
  | some (.str _) => False
  | _ => True

def contentSettled : Option Json → Prop
  | some (.arr bs) => bs.isEmpty = true ∨ lastIsObj bs = false
  | some (.str _) => False
  | _ => True

def msgsSettled : Option Json → Prop
  | some (.arr ms) =>
    ms.any msgHasCC = true ∨ (userIndicesFrom 0 ms).length < 2 ∨
      contentSettled ((ms.getD (targetIdx ms) Json.null).get contentKey)
  | _ => True

-- Tools zone.

theorem injectTools_cases (b : Json) :
    (injectTools b = b ∧ toolsSettled (b.get toolsKey)) ∨
      ∃ xs, b.get toolsKey = some (.arr xs) ∧ xs.isEmpty = false ∧
        xs.any hasCC = false ∧ lastIsObj xs = true ∧
        injectTools b = b.setKey toolsKey (.arr (annotateLast xs)) := by
  unfold injectTools
  cases hg : b.get toolsKey with
  | none =>
    left
    exact ⟨rfl, True.intro⟩
  | some v =>
    cases v with
    | arr xs =>
      by_cases he : xs.isEmpty
      · left
        constructor
        · show (if xs.isEmpty then b
            else if xs.any hasCC then b
            else b.setKey toolsKey (.arr (annotateLast xs))) = b
          rw [if_pos he]
        · exact Or.inl he
      · by_cases ha : xs.any hasCC
        · left
          constructor
          · show (if xs.isEmpty then b
              else if xs.any hasCC then b
              else b.setKey toolsKey (.arr (annotateLast xs))) = b
            rw [if_neg he, if_pos ha]
          · exact Or.inr (Or.inl ha)
        · by_cases ho : lastIsObj xs
          · right
            refine ⟨xs, rfl, by simpa using he, by simpa using ha, ho, ?_⟩
            show (if xs.isEmpty then b
              else if xs.any hasCC then b
              else b.setKey toolsKey (.arr (annotateLast xs))) =
                b.setKey toolsKey (.arr (annotateLast xs))
            rw [if_neg he, if_neg ha]
          · left
            constructor
            · show (if xs.isEmpty then b
                else if xs.any hasCC then b
                else b.setKey toolsKey (.arr (annotateLast xs))) = b
              rw [if_neg he, if_neg ha,
                annotateLast_last_not_obj (by simpa using ho)]
              exact setKey_eq_self hg
            · exact Or.inr (Or.inr (by simpa using ho))
    | null => exact Or.inl ⟨rfl, True.intro⟩
    | bool x => exact Or.inl ⟨rfl, True.intro⟩
    | num x => exact Or.inl ⟨rfl, True.intro⟩
    | str x => exact Or.inl ⟨rfl, True.intro⟩
    | obj x => exact Or.inl ⟨rfl, True.intro⟩

theorem injectTools_of_settled {b : Json} (h : toolsSettled (b.get toolsKey)) :
    injectTools b = b := by
  rcases injectTools_cases b with ⟨h1, _⟩ | ⟨xs, hg, he, ha, ho, hinj⟩
  · exact h1
  · rw [hg] at h
    simp only [toolsSettled] at h
    rcases h with h1 | h1 | h1
    · rw [h1] at he
      cases he
    · rw [h1] at ha
      cases ha
    · rw [h1] at ho
      cases ho

theorem toolsSettled_injectTools (b : Json) :
    toolsSettled ((injectTools b).get toolsKey) := by
  rcases injectTools_cases b with ⟨h1, h2⟩ | ⟨xs, hg, he, ha, ho, hinj⟩
  · rw [h1]
    exact h2
  · rw [hinj, get_setKey_self _ hg]
    exact Or.inr (Or.inl (annotateLast_any_cc ho))

theorem get_injectTools_ne {b : Json} {k : Str} (h : ¬ toolsKey = k) :
    (injectTools b).get k = b.get k := by
  rcases injectTools_cases b with ⟨h1, _⟩ | ⟨xs, hg, he, ha, ho, hinj⟩
  · rw [h1]
  · rw [hinj]
    exact get_setKey_ne _ h

theorem countCC_injectTools (b : Json) :
    countCC b ≤ countCC (injectTools b) ∧
      countCC (injectTools b) ≤ countCC b + 1 := by
  rcases injectTools_cases b with ⟨h1, _⟩ | ⟨xs, hg, he, ha, ho, hinj⟩
  · rw [h1]
    omega
  · rw [hinj]
    have hsys : (b.setKey toolsKey (.arr (annotateLast xs))).get sysKey =
        b.get sysKey := get_setKey_ne _ (by decide)
    have hmsgs : (b.setKey toolsKey (.arr (annotateLast xs))).get msgsKey =
        b.get msgsKey := get_setKey_ne _ (by decide)
    have htools : (b.setKey toolsKey (.arr (annotateLast xs))).get toolsKey =
        some (.arr (annotateLast xs)) := get_setKey_self _ hg
    unfold countCC
    rw [hsys, hmsgs, htools, hg]
    simp only [countArrCC]
    rw [countP_annotateLast ha ho]
    omega

-- System zone.

theorem injectSystem_cases (b : Json) :
    (injectSystem b = b ∧ sysSettled (b.get sysKey)) ∨
      (∃ xs, b.get sysKey = some (.arr xs) ∧ xs.isEmpty = false ∧
        xs.any hasCC = false ∧ lastIsObj xs = true ∧
        injectSystem b = b.setKey sysKey (.arr (annotateLast xs))) ∨
      (∃ t, b.get sysKey = some (.str t) ∧
        injectSystem b = b.setKey sysKey (.arr [ccTextBlock t])) := by
  unfold injectSystem
  cases hg : b.get sysKey with
  | none => exact Or.inl ⟨rfl, True.intro⟩
  | some v =>
    cases v with
    | arr xs =>
      by_cases he : xs.isEmpty
      · left
        constructor
        · show (if xs.isEmpty then b
            else if xs.any hasCC then b
            else b.setKey sysKey (.arr (annotateLast xs))) = b
          rw [if_pos he]
        · exact Or.inl he
      · by_cases ha : xs.any hasCC
        · left
          constructor
          · show (if xs.isEmpty then b
              else if xs.any hasCC then b
              else b.setKey sysKey (.arr (annotateLast xs))) = b
            rw [if_neg he, if_pos ha]
          · exact Or.inr (Or.inl ha)
        · by_cases ho : lastIsObj xs
          · right
            left
            refine ⟨xs, rfl, by simpa using he, by simpa using ha, ho, ?_⟩
            show (if xs.isEmpty then b
              else if xs.any hasCC then b
              else b.setKey sysKey (.arr (annotateLast xs))) =
                b.setKey sysKey (.arr (annotateLast xs))
            rw [if_neg he, if_neg ha]
          · left
            constructor
            · show (if xs.isEmpty then b
                else if xs.any hasCC then b
                else b.setKey sysKey (.arr (annotateLast xs))) = b
              rw [if_neg he, if_neg ha,
                annotateLast_last_not_obj (by simpa using ho)]
              exact setKey_eq_self hg
            · exact Or.inr (Or.inr (by simpa using ho))
    | str t => exact Or.inr (Or.inr ⟨t, rfl, rfl⟩)
    | null => exact Or.inl ⟨rfl, True.intro⟩
    | bool x => exact Or.inl ⟨rfl, True.intro⟩
    | num x => exact Or.inl ⟨rfl, True.intro⟩
    | obj x => exact Or.inl ⟨rfl, True.intro⟩

theorem injectSystem_of_settled {b : Json} (h : sysSettled (b.get sysKey)) :
    injectSystem b = b := by
  rcases injectSystem_cases b with ⟨h1, _⟩ | ⟨xs, hg, he, ha, ho, hinj⟩ |
    ⟨t, hg, hinj⟩
  · exact h1
  · rw [hg] at h
    simp only [sysSettled] at h
    rcases h with h1 | h1 | h1
    · rw [h1] at he
      cases he
    · rw [h1] at ha
      cases ha
    · rw [h1] at ho
      cases ho
  · rw [hg] at h
    simp only [sysSettled] at h

theorem sysSettled_injectSystem (b : Json) :
    sysSettled ((injectSystem b).get sysKey) := by
  rcases injectSystem_cases b with ⟨h1, h2⟩ | ⟨xs, hg, he, ha, ho, hinj⟩ |
    ⟨t, hg, hinj⟩
  · rw [h1]
    exact h2
  · rw [hinj, get_setKey_self _ hg]
    exact Or.inr (Or.inl (annotateLast_any_cc ho))
  · rw [hinj, get_setKey_self _ hg]
    exact Or.inr (Or.inl (by simp [hasCC_ccTextBlock]))

theorem get_injectSystem_ne {b : Json} {k : Str} (h : ¬ sysKey = k) :
    (injectSystem b).get k = b.get k := by
  rcases injectSystem_cases b with ⟨h1, _⟩ | ⟨xs, hg, he, ha, ho, hinj⟩ |
    ⟨t, hg, hinj⟩
  · rw [h1]
  · rw [hinj]
    exact get_setKey_ne _ h
  · rw [hinj]
    exact get_setKey_ne _ h

theorem countCC_injectSystem (b : Json) :
    countCC b ≤ countCC (injectSystem b) ∧
      countCC (injectSystem b) ≤ countCC b + 1 := by
  rcases injectSystem_cases b with ⟨h1, _⟩ | ⟨xs, hg, he, ha, ho, hinj⟩ |
    ⟨t, hg, hinj⟩
  · rw [h1]
    omega
  · rw [hinj]
    have htls : (b.setKey sysKey (.arr (annotateLast xs))).get toolsKey =
        b.get toolsKey := get_setKey_ne _ (by decide)
    have hmsgs : (b.setKey sysKey (.arr (annotateLast xs))).get msgsKey =
        b.get msgsKey := get_setKey_ne _ (by decide)
    have hsys : (b.setKey sysKey (.arr (annotateLast xs))).get sysKey =
        some (.arr (annotateLast xs)) := get_setKey_self _ hg
    unfold countCC
    rw [htls, hmsgs, hsys, hg]
    simp only [countArrCC]
    rw [countP_annotateLast ha ho]
    omega
  · rw [hinj]
    have htls : (b.setKey sysKey (.arr [ccTextBlock t])).get toolsKey =
        b.get toolsKey := get_setKey_ne _ (by decide)
    have hmsgs : (b.setKey sysKey (.arr [ccTextBlock t])).get msgsKey =
        b.get msgsKey := get_setKey_ne _ (by decide)
    have hsys : (b.setKey sysKey (.arr [ccTextBlock t])).get sysKey =
        some (.arr [ccTextBlock t]) := get_setKey_self _ hg
    unfold countCC
    rw [htls, hmsgs, hsys, hg]
    simp only [countArrCC]
    simp [List.countP_cons, hasCC_ccTextBlock]
    omega

-- Messages zone.

theorem updMsg_eq_self_of_settled {m : Json}
    (h : contentSettled (m.get contentKey)) : updMsg m = m := by
  unfold updMsg
  cases hc : m.get contentKey with
  | none => rfl
  | some c =>
    rw [hc] at h
    cases c with
    | arr bs =>
      simp only [contentSettled] at h
      show m.setKey contentKey (annotateContent (.arr bs)) = m
      rcases h with h1 | h1
      · have he : annotateContent (.arr bs) = .arr bs := by
          show (if bs.isEmpty then Json.arr bs else .arr (annotateLast bs)) =
            .arr bs
          rw [if_pos h1]
        rw [he]
        exact setKey_eq_self hc
      · have he : annotateContent (.arr bs) = .arr bs := by
          show (if bs.isEmpty then Json.arr bs else .arr (annotateLast bs)) =
            .arr bs
          by_cases hb : bs.isEmpty
          · rw [if_pos hb]
          · rw [if_neg hb, annotateLast_last_not_obj h1]
        rw [he]
        exact setKey_eq_self hc
    | str t => simp only [contentSettled] at h
    | null =>
      show m.setKey contentKey (annotateContent .null) = m
      exact setKey_eq_self hc
    | bool x =>
      show m.setKey contentKey (annotateContent (.bool x)) = m
      exact setKey_eq_self hc
    | num x =>
      show m.setKey contentKey (annotateContent (.num x)) = m
      exact setKey_eq_self hc
    | obj fs =>
      show m.setKey contentKey (annotateContent (.obj fs)) = m
      exact setKey_eq_self hc

theorem msgHasCC_updMsg {m : Json} {c : Json} {bs : List Json}
    (hc : m.get contentKey = some c) (h : annotateContent c = .arr bs)
    (hb : bs.any hasCC = true) : msgHasCC (updMsg m) = true := by
  unfold updMsg
  rw [hc]
  show msgHasCC (m.setKey contentKey (annotateContent c)) = true
  unfold msgHasCC
  rw [get_setKey_self _ hc, h]
  exact hb

theorem injectMessages_cases (b : Json) :
    (injectMessages b = b ∧ msgsSettled (b.get msgsKey)) ∨
      ∃ ms, b.get msgsKey = some (.arr ms) ∧
        injectMessages b =
          b.setKey msgsKey (.arr (modifyIdx ms (targetIdx ms) updMsg)) ∧
        (modifyIdx ms (targetIdx ms) updMsg).any msgHasCC = true := by
  unfold injectMessages
  cases hg : b.get msgsKey with
  | none => exact Or.inl ⟨rfl, True.intro⟩
  | some v =>
    cases v with
    | arr ms =>
      by_cases ha : ms.any msgHasCC
      · left
        constructor
        · show (if ms.any msgHasCC then b
            else if (userIndicesFrom 0 ms).length < 2 then b
            else b.setKey msgsKey
              (.arr (modifyIdx ms (targetIdx ms) updMsg))) = b
          rw [if_pos ha]
        · exact Or.inl ha
      · by_cases hl : (userIndicesFrom 0 ms).length < 2
        · left
          constructor
          · show (if ms.any msgHasCC then b
              else if (userIndicesFrom 0 ms).length < 2 then b
              else b.setKey msgsKey
                (.arr (modifyIdx ms (targetIdx ms) updMsg))) = b
            rw [if_neg ha, if_pos hl]
          · exact Or.inr (Or.inl hl)
        · have hlt : targetIdx ms < ms.length := targetIdx_lt (by omega)
          cases hc : (ms.getD (targetIdx ms) Json.null).get contentKey with
          | none =>
            have hset : contentSettled
                ((ms.getD (targetIdx ms) Json.null).get contentKey) := by
              rw [hc]
              exact True.intro
            left
            constructor
            · show (if ms.any msgHasCC then b
                else if (userIndicesFrom 0 ms).length < 2 then b
                else b.setKey msgsKey
                  (.arr (modifyIdx ms (targetIdx ms) updMsg))) = b
              rw [if_neg ha, if_neg hl,
                modifyIdx_eq_self (updMsg_eq_self_of_settled hset)]
              exact setKey_eq_self hg
            · exact Or.inr (Or.inr hset)
          | some c =>
            cases c with
            | str t =>
              right
              refine ⟨ms, rfl, ?_, ?_⟩
              · show (if ms.any msgHasCC then b
                  else if (userIndicesFrom 0 ms).length < 2 then b
                  else b.setKey msgsKey
                    (.arr (modifyIdx ms (targetIdx ms) updMsg))) =
                    b.setKey msgsKey (.arr (modifyIdx ms (targetIdx ms) updMsg))
                rw [if_neg ha, if_neg hl]
              · exact modifyIdx_any hlt
                  (msgHasCC_updMsg hc rfl (by simp [hasCC_ccTextBlock]))
            | arr bs =>
              by_cases he : bs.isEmpty
              · have hset : contentSettled
                    ((ms.getD (targetIdx ms) Json.null).get contentKey) := by
                  rw [hc]
                  exact Or.inl he
                left
                constructor
                · show (if ms.any msgHasCC then b
                    else if (userIndicesFrom 0 ms).length < 2 then b
                    else b.setKey msgsKey
                      (.arr (modifyIdx ms (targetIdx ms) updMsg))) = b
                  rw [if_neg ha, if_neg hl,
                    modifyIdx_eq_self (updMsg_eq_self_of_settled hset)]
                  exact setKey_eq_self hg
                · exact Or.inr (Or.inr hset)
              · by_cases ho : lastIsObj bs
                · right
                  refine ⟨ms, rfl, ?_, ?_⟩
                  · show (if ms.any msgHasCC then b
                      else if (userIndicesFrom 0 ms).length < 2 then b
                      else b.setKey msgsKey
                        (.arr (modifyIdx ms (targetIdx ms) updMsg))) =
                        b.setKey msgsKey
                          (.arr (modifyIdx ms (targetIdx ms) updMsg))
                    rw [if_neg ha, if_neg hl]
                  · refine modifyIdx_any hlt (msgHasCC_updMsg hc ?_
                      (annotateLast_any_cc ho))
                    show (if bs.isEmpty then Json.arr bs
                      else .arr (annotateLast bs)) = .arr (annotateLast bs)
                    rw [if_neg he]
                · have hset : contentSettled
                      ((ms.getD (targetIdx ms) Json.null).get contentKey) := by
                    rw [hc]
                    exact Or.inr (by simpa using ho)
                  left
                  constructor
                  · show (if ms.any msgHasCC then b
                      else if (userIndicesFrom 0 ms).length < 2 then b
                      else b.setKey msgsKey
                        (.arr (modifyIdx ms (targetIdx ms) updMsg))) = b
                    rw [if_neg ha, if_neg hl,
                      modifyIdx_eq_self (updMsg_eq_self_of_settled hset)]
                    exact setKey_eq_self hg
                  · exact Or.inr (Or.inr hset)
            | null =>
              have hset : contentSettled
                  ((ms.getD (targetIdx ms) Json.null).get contentKey) := by
                rw [hc]
                exact True.intro
              left
              constructor
              · show (if ms.any msgHasCC then b
                  else if (userIndicesFrom 0 ms).length < 2 then b
                  else b.setKey msgsKey
                    (.arr (modifyIdx ms (targetIdx ms) updMsg))) = b
                rw [if_neg ha, if_neg hl,
                  modifyIdx_eq_self (updMsg_eq_self_of_settled hset)]
                exact setKey_eq_self hg
              · exact Or.inr (Or.inr hset)
            | bool x =>
              have hset : contentSettled
                  ((ms.getD (targetIdx ms) Json.null).get contentKey) := by
                rw [hc]
                exact True.intro
              left
              constructor
              · show (if ms.any msgHasCC then b
                  else if (userIndicesFrom 0 ms).length < 2 then b
                  else b.setKey msgsKey
                    (.arr (modifyIdx ms (targetIdx ms) updMsg))) = b
                rw [if_neg ha, if_neg hl,
                  modifyIdx_eq_self (updMsg_eq_self_of_settled hset)]
                exact setKey_eq_self hg
              · exact Or.inr (Or.inr hset)
            | num x =>
              have hset : contentSettled
                  ((ms.getD (targetIdx ms) Json.null).get contentKey) := by
                rw [hc]
                exact True.intro
              left
              constructor
              · show (if ms.any msgHasCC then b
                  else if (userIndicesFrom 0 ms).length < 2 then b
                  else b.setKey msgsKey
                    (.arr (modifyIdx ms (targetIdx ms) updMsg))) = b
                rw [if_neg ha, if_neg hl,
                  modifyIdx_eq_self (updMsg_eq_self_of_settled hset)]
                exact setKey_eq_self hg
              · exact Or.inr (Or.inr hset)
            | obj fs =>
              have hset : contentSettled
                  ((ms.getD (targetIdx ms) Json.null).get contentKey) := by
                rw [hc]
                exact True.intro
              left
              constructor
              · show (if ms.any msgHasCC then b
                  else if (userIndicesFrom 0 ms).length < 2 then b
                  else b.setKey msgsKey
                    (.arr (modifyIdx ms (targetIdx ms) updMsg))) = b
                rw [if_neg ha, if_neg hl,
                  modifyIdx_eq_self (updMsg_eq_self_of_settled hset)]
                exact setKey_eq_self hg
              · exact Or.inr (Or.inr hset)
    | null => exact Or.inl ⟨rfl, True.intro⟩
    | bool x => exact Or.inl ⟨rfl, True.intro⟩
    | num x => exact Or.inl ⟨rfl, True.intro⟩
    | str x => exact Or.inl ⟨rfl, True.intro⟩
    | obj x => exact Or.inl ⟨rfl, True.intro⟩

theorem injectMessages_of_settled {b : Json}
    (h : msgsSettled (b.get msgsKey)) : injectMessages b = b := by
  unfold injectMessages
  cases hg : b.get msgsKey with
  | none => rfl
  | some v =>
    cases v with
    | arr ms =>
      rw [hg] at h
      simp only [msgsSettled] at h
      show (if ms.any msgHasCC then b
        else if (userIndicesFrom 0 ms).length < 2 then b
        else b.setKey msgsKey (.arr (modifyIdx ms (targetIdx ms) updMsg))) = b
      by_cases ha : ms.any msgHasCC
      · rw [if_pos ha]
      · rw [if_neg ha]
        by_cases hl : (userIndicesFrom 0 ms).length < 2
        · rw [if_pos hl]
        · rw [if_neg hl]
          rcases h with h1 | h1 | h1
          · exact absurd h1 ha
          · exact absurd h1 hl
          · rw [modifyIdx_eq_self (updMsg_eq_self_of_settled h1)]
            exact setKey_eq_self hg
    | null => rfl
    | bool x => rfl
    | num x => rfl
    | str x => rfl
    | obj x => rfl

theorem msgsSettled_injectMessages (b : Json) :
    msgsSettled ((injectMessages b).get msgsKey) := by
  rcases injectMessages_cases b with ⟨h1, h2⟩ | ⟨ms, hg, hinj, hany⟩
  · rw [h1]
    exact h2
  · rw [hinj, get_setKey_self _ hg]
    exact Or.inl hany

theorem get_injectMessages_ne {b : Json} {k : Str} (h : ¬ msgsKey = k) :
    (injectMessages b).get k = b.get k := by
  rcases injectMessages_cases b with ⟨h1, _⟩ | ⟨ms, hg, hinj, hany⟩
  · rw [h1]
  · rw [hinj]
    exact get_setKey_ne _ h

/-- Claim C2: when four or more cache-control annotations already exist in
the counted zones (system array, tools array, message content arrays),
`ensure_cache_control` returns the body completely unchanged. -/
theorem c2_saturated_no_mutation (body : Json) (h : 4 ≤ countCC body) :
    ensureCacheControl body = body := by
  unfold ensureCacheControl
  rw [if_pos h]

/-- A request body whose system zone already carries four annotations. -/
def c2SaturatedBody : Json :=
  .obj [(sysKey, .arr [.obj [(ccKey, ephem)], .obj [(ccKey, ephem)],
    .obj [(ccKey, ephem)], .obj [(ccKey, ephem)]])]

/-- Claim C2 witness: a concrete saturated body is left unchanged. -/
theorem c2_saturated_no_mutation_witness :
    4 ≤ countCC c2SaturatedBody ∧
      ensureCacheControl c2SaturatedBody = c2SaturatedBody :=
  ⟨by decide, c2_saturated_no_mutation c2SaturatedBody (by decide)⟩

/-- Claim C7: applying `ensure_cache_control` twice yields the same
annotated body as applying it once. -/
theorem c7_ensure_cache_control_idem (body : Json) :
    ensureCacheControl (ensureCacheControl body) = ensureCacheControl body := by
  by_cases h4 : 4 ≤ countCC body
  · have h1 : ensureCacheControl body = body := by
      unfold ensureCacheControl
      rw [if_pos h4]
    rw [h1]
    exact h1
  · have he4 : countCC body < 4 := by omega
    set b1 := injectTools body with hb1
    obtain ⟨hcT1, hcT2⟩ := countCC_injectTools body
    rw [← hb1] at hcT1 hcT2
    have hr0 : 0 < 4 - countCC body := by omega
    have hp1 : stepCC injectTools (body, 4 - countCC body) =
        (b1, (4 - countCC body) - (countCC b1 - countCC body)) := by
      unfold stepCC
      rw [if_pos hr0]
    set r1 := (4 - countCC body) - (countCC b1 - countCC body) with hr1def
    have hr1eq : r1 = 4 - countCC b1 := by omega
    by_cases h1pos : 0 < r1
    · set b2 := injectSystem b1 with hb2
      obtain ⟨hcS1, hcS2⟩ := countCC_injectSystem b1
      rw [← hb2] at hcS1 hcS2
      have hp2 : stepCC injectSystem (b1, r1) =
          (b2, r1 - (countCC b2 - countCC b1)) := by
        unfold stepCC
        rw [if_pos h1pos]
      set r2 := r1 - (countCC b2 - countCC b1) with hr2def
      have hc1le : countCC b1 < 4 := by omega
      have hr2eq : r2 = 4 - countCC b2 := by omega
      by_cases h2pos : 0 < r2
      · set b3 := injectMessages b2 with hb3
        have hres : ensureCacheControl body = b3 := by
          unfold ensureCacheControl
          rw [if_neg h4]
          simp only [hp1, hp2]
          rw [if_pos h2pos]
        have hTS : toolsSettled (b3.get toolsKey) := by
          have h1 := toolsSettled_injectTools body
          have e2 : b2.get toolsKey = b1.get toolsKey :=
            get_injectSystem_ne (by decide)
          have e3 : b3.get toolsKey = b2.get toolsKey :=
            get_injectMessages_ne (by decide)
          rw [e3, e2]
          exact h1
        have hSS : sysSettled (b3.get sysKey) := by
          have h1 := sysSettled_injectSystem b1
          have e3 : b3.get sysKey = b2.get sysKey :=
            get_injectMessages_ne (by decide)
          rw [e3]
          exact h1
        have hMS : msgsSettled (b3.get msgsKey) := msgsSettled_injectMessages b2
        rw [hres]
        by_cases h34 : 4 ≤ countCC b3
        · unfold ensureCacheControl
          rw [if_pos h34]
        · have hT3 : injectTools b3 = b3 := injectTools_of_settled hTS
          have hS3 : injectSystem b3 = b3 := injectSystem_of_settled hSS
          have hM3 : injectMessages b3 = b3 := injectMessages_of_settled hMS
          unfold ensureCacheControl
          rw [if_neg h34]
          have hr0' : 0 < 4 - countCC b3 := by omega
          have hp1' : stepCC injectTools (b3, 4 - countCC b3) =
              (b3, 4 - countCC b3) := by
            unfold stepCC
            rw [if_pos hr0', hT3]
            simp
          have hp2' : stepCC injectSystem (b3, 4 - countCC b3) =
              (b3, 4 - countCC b3) := by
            unfold stepCC
            rw [if_pos hr0', hS3]
            simp
          simp only [hp1', hp2']
          rw [if_pos hr0']
          exact hM3
      · have hres : ensureCacheControl body = b2 := by
          unfold ensureCacheControl
          rw [if_neg h4]
          simp only [hp1, hp2]
          rw [if_neg h2pos]
        have hc2 : countCC b2 = 4 := by omega
        rw [hres]
        unfold ensureCacheControl
        rw [if_pos (by omega)]
    · have hp2z : stepCC injectSystem (b1, r1) = (b1, r1) := by
        unfold stepCC
        rw [if_neg h1pos]
      have hres : ensureCacheControl body = b1 := by
        unfold ensureCacheControl
        rw [if_neg h4]
        simp only [hp1, hp2z]
        rw [if_neg h1pos]
      have hc1 : countCC b1 = 4 := by omega
      rw [hres]
      unfold ensureCacheControl
      rw [if_pos (by omega)]

-- ===== Content/Message converter (src/convert/to_openai.rs) =====

/-- Source `ContentBlock` from `src/types/anthropic.rs`. -/
inductive ContentBlock where
  | text (t : Str)
  | thinking (thinking : Str) (signature : Option Str)
  | toolUse (id : Str) (name : Str) (input : Json)
  | toolResult (toolUseId : Str) (content : Str) (isError : Option Bool)

/-- Source `Message` from `src/types/anthropic.rs`. -/
structure Message where
  role : Str
  content : List ContentBlock

structure ToolCallFn where
  name : Str
  arguments : Str

structure ToolCallOut where
  id : Str
  callType : Str
  function : ToolCallFn

/-- Source `ChatMessage` from `src/types/openai.rs`. -/
structure ChatMessage where
  role : Str
  content : Option Str
  toolCalls : Option (List ToolCallOut)
  toolCallId : Option Str

/-- Source `ChatMessage::system`. -/
def ChatMessage.systemMsg (s : Str) : ChatMessage :=
  ⟨"system".toList, some s, none, none⟩

/-- Source `ChatMessage::user`. -/
def ChatMessage.userMsg (s : Str) : ChatMessage :=
  ⟨"user".toList, some s, none, none⟩

/-- Source `ChatMessage::tool_result`. -/
def ChatMessage.toolResultMsg (toolCallId content : Str) : ChatMessage :=
  ⟨"tool".toList, some content, none, some toolCallId⟩

/-- Newline join of text parts. -/
def joinNl (parts : List Str) : Str := List.intercalate "\n".toList parts

def textOf : ContentBlock → Option Str
  | .text t => some t
  | _ => none

def isToolResult : ContentBlock → Bool
  | .toolResult .. => true
  | _ => false

/-- Tool-call entry of an assistant `ToolUse` block; `render` models
`serde_json::to_string` composed with `unwrap_or_default`. -/
def toolCallOfBlock (render : Json → Str) : ContentBlock → Option ToolCallOut
  | .toolUse id name input =>
    some ⟨id, "function".toList, ⟨name, render input⟩⟩
  | _ => none

def toolMsgOfBlock : ContentBlock → Option ChatMessage
  | .toolResult tuid content _ => some (ChatMessage.toolResultMsg tuid content)
  | _ => none

/-- The per-message part of `messages_to_openai`. -/
def convertMsg (render : Json → Str) (msg : Message) : List ChatMessage :=
  if msg.role = "assistant".toList then
    let textParts := msg.content.filterMap textOf
    let toolCalls := msg.content.filterMap (toolCallOfBlock render)
    [{ role := "assistant".toList,
       content := if textParts.isEmpty then none else some (joinNl textParts),
       toolCalls := if toolCalls.isEmpty then none else some toolCalls,
       toolCallId := none }]
  else if msg.role = "user".toList then
    if msg.content.any isToolResult then msg.content.filterMap toolMsgOfBlock
    else [ChatMessage.userMsg (joinNl (msg.content.filterMap textOf))]
  else []

/-- Source `messages_to_openai` from `src/convert/to_openai.rs`. -/
def messagesToOpenai (render : Json → Str) (system : Option Str)
    (messages : List Message) : List ChatMessage :=
  (match system with
   | some s => [ChatMessage.systemMsg s]
   | none => []) ++ messages.flatMap (convertMsg render)

structure RespToolCallFn where
  name : Str
  arguments : Str

structure RespToolCall where
  id : Str
  callType : Option Str
  function : RespToolCallFn

structure RespMessage where
  role : Option Str
  content : Option Str
  reasoningContent : Option Str
  toolCalls : Option (List RespToolCall)

/-- Source `Choice` from `src/types/openai.rs`. -/
structure ChoiceR where
  index : Option Nat
  message : RespMessage
  finishReason : Option Str

structure RespUsage where
  promptTokens : Nat
  completionTokens : Nat
  totalTokens : Nat
  cacheCreationInputTokens : Option Nat
  cacheReadInputTokens : Option Nat

/-- Source `ChatResponse` from `src/types/openai.rs`. -/
structure ChatResponse where
  id : Option Str
  object : Option Str
  created : Option Nat
  model : Option Str
  choices : List ChoiceR
  usage : Option RespUsage

/-- Source `Usage` from `src/types/common.rs`. -/
structure UsageA where
  inputTokens : Nat
  outputTokens : Nat
  cacheCreationInputTokens : Option Nat
  cacheReadInputTokens : Option Nat

/-- Source `MessagesResponse` from `src/types/anthropic.rs` (the `stop_reason`
field holds the normalized value the converter constructs). -/
structure MessagesResponse where
  id : Option Str
  model : Option Str
  content : List ContentBlock
  stopReason : StopReason
  usage : Option UsageA

/-- Source `response_to_anthropic` from `src/convert/to_openai.rs`; `parse` models
`serde_json::from_str`, with the parse-failure fallback to an empty
object inlined via `getD`. -/
def responseToAnthropic (parse : Str → Option Json) (resp : ChatResponse) :
    Except Str MessagesResponse :=
  match resp.choices with
  | [] => .error "OpenAI response had no choices".toList
  | choice :: _ =>
    let textBlocks : List ContentBlock :=
      match choice.message.content with
      | some t => if t.isEmpty then [] else [.text t]
      | none => []
    let toolBlocks : List ContentBlock :=
      match choice.message.toolCalls with
      | some tcs => tcs.map (fun tc =>
          ContentBlock.toolUse tc.id tc.function.name
            ((parse tc.function.arguments).getD (Json.obj [])))
      | none => []
    .ok { id := resp.id, model := resp.model,
          content := textBlocks ++ toolBlocks,
          stopReason := StopReason.fromOpenai
            (choice.finishReason.getD "stop".toList),
          usage := resp.usage.map (fun u =>
            { inputTokens := u.promptTokens,
              outputTokens := u.completionTokens,
              cacheCreationInputTokens := u.cacheCreationInputTokens,
              cacheReadInputTokens := u.cacheReadInputTokens }) }

/-- Claim C3: a flat response with an empty choices list converts to an
explicit error; with at least one choice the conversion succeeds and
depends only on the first choice (and the envelope fields). -/
theorem c3_first_choice_only (parse : Str → Option Json)
    (resp : ChatResponse) :
    (resp.choices = [] →
      responseToAnthropic parse resp =
        .error "OpenAI response had no choices".toList) ∧
    (∀ c rest, resp.choices = c :: rest →
      responseToAnthropic parse resp =
        responseToAnthropic parse { resp with choices := [c] } ∧
      ∃ v, responseToAnthropic parse resp = .ok v) := by
  constructor
  · intro h
    unfold responseToAnthropic
    rw [h]
  · intro c rest h
    constructor
    · unfold responseToAnthropic
      rw [h]
    · unfold responseToAnthropic
      rw [h]
      exact ⟨_, rfl⟩

/-- An inbound flat response with no choices. -/
def c3EmptyResp : ChatResponse := ⟨none, none, none, none, [], none⟩

/-- Claim C3 witness: the zero-choice response yields the error value. -/
theorem c3_first_choice_only_witness :
    responseToAnthropic (fun _ => none) c3EmptyResp =
      .error "OpenAI response had no choices".toList :=
  (c3_first_choice_only (fun _ => none) c3EmptyResp).1 rfl

/-- Claim C4: a flat tool call whose arguments string fails to parse as
JSON becomes a `ToolUse` block with the empty object as input, and the
whole conversion still succeeds. -/
theorem c4_malformed_tool_arguments (parse : Str → Option Json)
    (resp : ChatResponse) (c : ChoiceR) (rest : List ChoiceR)
    (tc : RespToolCall)
    (hch : resp.choices = c :: rest)
    (htc : tc ∈ c.message.toolCalls.getD [])
    (hbad : parse tc.function.arguments = none) :
    ∃ v, responseToAnthropic parse resp = .ok v ∧
      ContentBlock.toolUse tc.id tc.function.name (Json.obj []) ∈ v.content := by
  unfold responseToAnthropic
  rw [hch]
  refine ⟨_, rfl, ?_⟩
  apply List.mem_append_right
  cases hmt : c.message.toolCalls with
  | none =>
    rw [hmt] at htc
    simp at htc
  | some tcs =>
    rw [hmt] at htc
    simp only [Option.getD_some] at htc
    have hm : ContentBlock.toolUse tc.id tc.function.name
        ((parse tc.function.arguments).getD (Json.obj [])) ∈
        tcs.map (fun tc' : RespToolCall =>
          ContentBlock.toolUse tc'.id tc'.function.name
            ((parse tc'.function.arguments).getD (Json.obj []))) :=
      List.mem_map_of_mem _ htc
    rw [hbad] at hm
    exact hm

/-- A tool call whose arguments are not valid JSON. -/
def c4ToolCall : RespToolCall :=
  ⟨"call1".toList, some "function".toList,
    ⟨"doit".toList, "\x7bnot json".toList⟩⟩

/-- A one-choice response carrying the malformed tool call. -/
def c4Resp : ChatResponse :=
  ⟨some "id".toList, none, none, none,
    [⟨some 0, ⟨some "assistant".toList, none, none, some [c4ToolCall]⟩,
      some "stop".toList⟩], none⟩

/-- Claim C4 witness: the malformed-arguments tool call converts to a
`ToolUse` with empty-object input and the conversion succeeds. -/
theorem c4_malformed_tool_arguments_witness :
    ∃ v, responseToAnthropic (fun _ => none) c4Resp = .ok v ∧
      ContentBlock.toolUse "call1".toList "doit".toList (Json.obj []) ∈
        v.content :=
  c4_malformed_tool_arguments (fun _ => none) c4Resp _ _ c4ToolCall rfl
    (List.mem_singleton.mpr rfl) rfl

/-- Claim C10: a user message containing at least one `ToolResult` block is
expanded into exactly one flat tool-role message per `ToolResult` block and
nothing else: its `Text` and `Thinking` blocks appear in no output
message. -/
theorem c10_tool_results_only (render : Json → Str) (msg : Message)
    (hrole : msg.role = "user".toList)
    (htr : msg.content.any isToolResult = true) :
    messagesToOpenai render none [msg] = msg.content.filterMap toolMsgOfBlock := by
  unfold messagesToOpenai
  show [] ++ ([msg].flatMap (convertMsg render)) = _
  rw [List.nil_append]
  show convertMsg render msg ++ [].flatMap (convertMsg render) = _
  rw [List.flatMap_nil, List.append_nil]
  unfold convertMsg
  rw [hrole]
  rw [if_neg (by decide), if_pos (by decide : ("user".toList : Str) = "user".toList),
    if_pos htr]

/-- A user message mixing text and a tool result. -/
def c10Msg : Message :=
  ⟨"user".toList,
    [.text "note".toList, .toolResult "id1".toList "out".toList none]⟩

/-- Claim C10 witness: the mixed user message becomes exactly one tool
message; the text block is dropped. -/
theorem c10_tool_results_only_witness :
    messagesToOpenai (fun _ => []) none [c10Msg] =
      [ChatMessage.toolResultMsg "id1".toList "out".toList] := by
  rw [c10_tool_results_only (fun _ => []) c10Msg rfl (by decide)]
  rfl

-- ===== Inbound converter (src/convert/to_anthropic.rs) =====

/-- Source `InboundContentPart` from `src/types/openai.rs`. -/
inductive InboundPart where
  | text (t : Str)
  | imageUrl (url : Str)

/-- Source `InboundContent` from `src/types/openai.rs`: text, parts, or null. -/
inductive InboundContent where
  | text (t : Str)
  | parts (ps : List InboundPart)
  | null

structure InboundFn where
  name : Str
  arguments : Str

structure InboundToolCall where
  id : Str
  function : InboundFn

/-- Source `InboundMessage` from `src/types/openai.rs`. -/
structure InboundMessage where
  role : Str
  content : InboundContent
  toolCalls : Option (List InboundToolCall)
  toolCallId : Option Str

/-- Source `InboundChatRequest` from `src/types/openai.rs`; the `f32` fields
`temperature` and `top_p` are carried opaquely as JSON values. -/
structure InboundChatRequest where
  model : Option Str
  messages : List InboundMessage
  maxTokens : Option Nat
  temperature : Option Json
  stream : Option Bool
  topP : Option Json
  tools : Option (List Json)
  reasoningEffort : Option Str

/-- Source `str::strip_prefix` as used by `parse_data_url`. -/
def stripPre (p l : Str) : Option Str :=
  if isPre p l then some (l.drop p.length) else none

/-- Source `str::split_once(',')`. -/
def splitOnceComma : Str → Option (Str × Str)
  | [] => none
  | c :: rest =>
    if c = ',' then some ([], rest)
    else (splitOnceComma rest).map (fun p => (c :: p.1, p.2))

/-- Source `str::strip_suffix(";base64")`. -/
def stripSufB64 (l : Str) : Option Str :=
  if ";base64".toList.isSuffixOf l then some (l.take (l.length - 7)) else none

/-- Source `parse_data_url` from `src/convert/to_anthropic.rs`. -/
def parseDataUrl (url : Str) : Option (Str × Str) :=
  match stripPre "data:".toList url with
  | none => none
  | some rest =>
    match splitOnceComma rest with
    | none => none
    | some (header, data) =>
      match stripSufB64 header with
      | none => none
      | some mediaType => some (mediaType, data)

def textBlockJ (t : Str) : Json :=
  .obj [(typeKey, .str "text".toList), (textKey, .str t)]

def imageBlockJ (mediaType data : Str) : Json :=
  .obj [(typeKey, .str "image".toList),
    ("source".toList, .obj [(typeKey, .str "base64".toList),
      ("media_type".toList, .str mediaType), ("data".toList, .str data)])]

def toolResultBlockJ (toolUseId content : Str) : Json :=
  .obj [(typeKey, .str "tool_result".toList),
    ("tool_use_id".toList, .str toolUseId), (contentKey, .str content)]

def toolUseBlockJ (id name : Str) (input : Json) : Json :=
  .obj [(typeKey, .str "tool_use".toList), ("id".toList, .str id),
    ("name".toList, .str name), ("input".toList, input)]

def msgJ (role : Str) (blocks : List Json) : Json :=
  .obj [(roleKey, .str role), (contentKey, .arr blocks)]

/-- System-part contribution of one inbound message: text of system-role
messages (parts joined by the empty string), dropped if empty. -/
def sysPartOf (msg : InboundMessage) : List Json :=
  if msg.role = "system".toList then
    let text : Str :=
      match msg.content with
      | .text t => t
      | .parts ps => (ps.filterMap (fun p =>
          match p with
          | .text t => some t
          | _ => none)).flatten
      | .null => []
    if text.isEmpty then [] else [textBlockJ text]
  else []

/-- Content blocks of one part in the assistant branch: text always, image
only for a well-formed `data:` URL. -/
def assistantPartBlocks : InboundPart → List Json
  | .text t => [textBlockJ t]
  | .imageUrl url =>
    if isPre "data:".toList url then
      match parseDataUrl url with
      | some p => [imageBlockJ p.1 p.2]
      | none => []
    else []

/-- A `tool_use` block from an inbound tool call; `parse` models
`serde_json::from_str` with the empty-object fallback. -/
def toolUseOfCall (parse : Str → Option Json) (tc : InboundToolCall) : Json :=
  toolUseBlockJ tc.id tc.function.name
    ((parse tc.function.arguments).getD (Json.obj []))

/-- Content block of one part in the default (user) branch. -/
def userPartBlock : InboundPart → Option Json
  | .text t => some (textBlockJ t)
  | .imageUrl url =>
    if isPre "data:".toList url then
      (parseDataUrl url).map (fun p => imageBlockJ p.1 p.2)
    else none

/-- Message-list contribution of one inbound message (system messages
contribute nothing here; they go to the system field). -/
def msgOf (parse : Str → Option Json) (msg : InboundMessage) : List Json :=
  if msg.role = "system".toList then []
  else if msg.role = "tool".toList then
    let content : Str :=
      match msg.content with
      | .text t => t
      | _ => []
    [msgJ "user".toList [toolResultBlockJ (msg.toolCallId.getD []) content]]
  else if msg.role = "assistant".toList then
    let contentBlocks :=
      (match msg.content with
       | .text t => if t.isEmpty then [] else [textBlockJ t]
       | .parts ps => ps.flatMap assistantPartBlocks
       | .null => []) ++
      (match msg.toolCalls with
       | some tcs => tcs.map (toolUseOfCall parse)
       | none => [])
    if contentBlocks.isEmpty then []
    else [msgJ "assistant".toList contentBlocks]
  else
    let contentBlocks :=
      match msg.content with
      | .text t => [textBlockJ t]
      | .parts ps => ps.filterMap userPartBlock
      | .null => [textBlockJ []]
    if contentBlocks.isEmpty then [] else [msgJ "user".toList contentBlocks]

/-- Source `serde_json::Map` insert through `Value` indexing (`body[key] = v`). -/
def Json.insertJ : Json → Str → Json → Json
  | .obj fs, k, v => .obj (insertKey fs k v)
  | j, _, _ => j

/-- Source `openai_tool_to_anthropic` from `src/convert/to_anthropic.rs`. -/
def openaiToolToAnthropic (tool : Json) : Json :=
  match tool.get "function".toList with
  | some fn =>
    .obj [("name".toList, (fn.get "name".toList).getD (.str "unknown".toList)),
      ("description".toList, (fn.get "description".toList).getD (.str [])),
      ("input_schema".toList, (fn.get "parameters".toList).getD
        (.obj [(typeKey, .str "object".toList),
          ("properties".toList, .obj [])]))]
  | none => tool

/-- Source `inbound_request_to_anthropic` from `src/convert/to_anthropic.rs`. -/
def inboundRequestToAnthropic (parse : Str → Option Json)
    (req : InboundChatRequest) : Json :=
  let systemParts := req.messages.flatMap sysPartOf
  let messages := req.messages.flatMap (msgOf parse)
  let b0 : Json := .obj [(msgsKey, .arr messages)]
  let b1 := match req.model with
    | some m => b0.insertJ "model".toList (.str m)
    | none => b0
  let b2 := match req.maxTokens with
    | some n => b1.insertJ "max_tokens".toList (.num (n : Int))
    | none => b1
  let b3 := match req.temperature with
    | some t => b2.insertJ "temperature".toList t
    | none => b2
  let b4 := if systemParts.isEmpty then b3
    else b3.insertJ sysKey (.arr systemParts)
  match req.tools with
  | some ts => b4.insertJ toolsKey (.arr (ts.map openaiToolToAnthropic))
  | none => b4

/-- Bridge from an outbound flat message to the permissive inbound decode,
modelling the JSON serialize/deserialize handoff between the two sides:
a present `content` string decodes as text, an absent one as null. -/
def chatMessageToInbound (m : ChatMessage) : InboundMessage :=
  { role := m.role,
    content :=
      match m.content with
      | some t => .text t
      | none => .null,
    toolCalls := m.toolCalls.map (List.map (fun tc =>
      { id := tc.id,
        function := { name := tc.function.name,
                      arguments := tc.function.arguments } })),
    toolCallId := m.toolCallId }

/-- The structured-to-flat-to-structured pipeline of claim C8. -/
def roundTripMsgs (parse : Str → Option Json) (render : Json → Str)
    (msgs : List Message) : Json :=
  inboundRequestToAnthropic parse
    { model := none,
      messages := (messagesToOpenai render none msgs).map chatMessageToInbound,
      maxTokens := none, temperature := none, stream := none, topP := none,
      tools := none, reasoningEffort := none }

-- Text-only message facts.

theorem filterMap_textOf_map (ts : List Str) :
    (ts.map ContentBlock.text).filterMap textOf = ts := by
  induction ts with
  | nil => rfl
  | cons t rest ih => simp [textOf, ih]

theorem any_isToolResult_map (ts : List Str) :
    (ts.map ContentBlock.text).any isToolResult = false := by
  induction ts with
  | nil => rfl
  | cons t rest ih => simp [isToolResult, ih]

theorem filterMap_toolCall_map (render : Json → Str) (ts : List Str) :
    (ts.map ContentBlock.text).filterMap (toolCallOfBlock render) = [] := by
  induction ts with
  | nil => rfl
  | cons t rest ih => simp [toolCallOfBlock, ih]

theorem messagesToOpenai_user_text (render : Json → Str) (ts : List Str) :
    messagesToOpenai render none
        [⟨"user".toList, ts.map ContentBlock.text⟩] =
      [ChatMessage.userMsg (joinNl ts)] := by
  unfold messagesToOpenai
  show [] ++ ([⟨"user".toList, ts.map ContentBlock.text⟩].flatMap
    (convertMsg render)) = _
  rw [List.nil_append, List.flatMap_cons, List.flatMap_nil, List.append_nil]
  unfold convertMsg
  rw [if_neg (by decide : ¬ (("user".toList : Str) = "assistant".toList)),
    if_pos (by decide : ("user".toList : Str) = "user".toList)]
  rw [show (⟨"user".toList, ts.map ContentBlock.text⟩ : Message).content =
    ts.map ContentBlock.text from rfl]
  rw [any_isToolResult_map]
  rw [if_neg (by decide : ¬ (false = true))]
  rw [filterMap_textOf_map]

theorem messagesToOpenai_assistant_text (render : Json → Str) (ts : List Str)
    (hne : ts.isEmpty = false) :
    messagesToOpenai render none
        [⟨"assistant".toList, ts.map ContentBlock.text⟩] =
      [⟨"assistant".toList, some (joinNl ts), none, none⟩] := by
  unfold messagesToOpenai
  show [] ++ ([⟨"assistant".toList, ts.map ContentBlock.text⟩].flatMap
    (convertMsg render)) = _
  rw [List.nil_append, List.flatMap_cons, List.flatMap_nil, List.append_nil]
  unfold convertMsg
  rw [if_pos (by decide : ("assistant".toList : Str) = "assistant".toList)]
  rw [show (⟨"assistant".toList, ts.map ContentBlock.text⟩ : Message).content =
    ts.map ContentBlock.text from rfl]
  rw [filterMap_textOf_map, filterMap_toolCall_map]
  simp [hne]

/-- Claim C8 (amended): the structured-to-flat-to-structured round trip
preserves the newline-joined text of a Text-only message exactly, for every
user message and for every assistant message whose joined text is nonempty;
an assistant message with empty joined text is dropped by the inbound
converter's empty-turn policy. -/
theorem c8_text_round_trip (parse : Str → Option Json) (render : Json → Str)
    (r : Str) (ts : List Str) :
    (r = "user".toList →
      (roundTripMsgs parse render [⟨r, ts.map ContentBlock.text⟩]).get msgsKey =
        some (.arr [msgJ "user".toList [textBlockJ (joinNl ts)]])) ∧
    (r = "assistant".toList → (joinNl ts).isEmpty = false →
      (roundTripMsgs parse render [⟨r, ts.map ContentBlock.text⟩]).get msgsKey =
        some (.arr [msgJ "assistant".toList [textBlockJ (joinNl ts)]])) := by
  constructor
  · intro hr
    subst hr
    unfold roundTripMsgs
    rw [messagesToOpenai_user_text]
    simp [inboundRequestToAnthropic, sysPartOf, msgOf, chatMessageToInbound,
      ChatMessage.userMsg, Json.get, Json.insertJ, lookupA, msgJ, textBlockJ]
  · intro hr hne
    subst hr
    have hts : ts.isEmpty = false := by
      cases ts with
      | nil => simp [joinNl, List.intercalate] at hne
      | cons t rest => rfl
    unfold roundTripMsgs
    rw [messagesToOpenai_assistant_text render ts hts]
    simp [inboundRequestToAnthropic, sysPartOf, msgOf, chatMessageToInbound,
      Json.get, Json.insertJ, lookupA, msgJ, textBlockJ, hne]

/-- Claim C8 counterexample: an assistant message whose only block is
`Text("")` (joined text empty, content consisting only of Text blocks) round
trips to an empty message list — the message is dropped entirely, so the
joined text is not preserved as the claim states for every message. -/
theorem c8_empty_assistant_dropped :
    (roundTripMsgs (fun _ => none) (fun _ => [])
        [⟨"assistant".toList, [ContentBlock.text []]⟩]).get msgsKey =
      some (.arr []) ∧
    Json.arr [] ≠ Json.arr [msgJ "assistant".toList [textBlockJ []]] := by
  constructor
  · rfl
  · simp [msgJ]

/-- Claim C8 witness: a user message of texts `hi` and `there` round trips
to one user message whose text is the newline join. -/
theorem c8_text_round_trip_witness :
    (roundTripMsgs (fun _ => none) (fun _ => [])
        [⟨"user".toList, ["hi".toList, "there".toList].map ContentBlock.text⟩]
      ).get msgsKey =
      some (.arr [msgJ "user".toList
        [textBlockJ (joinNl ["hi".toList, "there".toList])]]) :=
  (c8_text_round_trip (fun _ => none) (fun _ => []) "user".toList
    ["hi".toList, "there".toList]).1 rfl
